import Mathlib

/-!
Verification of `krnl_heavy_compute_parallel`.

Shallow embedding of `src/kernels/fpga/krnl_heavy_compute_parallel.cpp`, and of the string
constants of `src/src/common/device_constants.h`.

* C `int` is a 32-bit signed integer.  Values are carried as `Int`; every signed
  addition the source performs on a loop counter goes through `addInt`, which has
  no result (`none`) when the mathematical sum leaves the `int` range, since signed
  overflow is undefined behaviour in C.
* Global memory is one flat map from word addresses to `int32_t` values.  The
  three pointer arguments are addresses into it, so aliased calls are expressible:
  `in1[index]` is the cell `in1 + index`.
* Every element access is appended to a trace, in program order, and the completed
  iterations of the outer loop are counted.
* `float` and the functions `hls::sinf`, `hls::cosf` come from `hls_math.h`, which
  is not part of the repository; they are taken as a parameter (`FloatOps`).
-/

namespace HeavyCompute

/-- Largest value of the C type `int` (two's complement, 32 bits). -/
def INT_MAX : Int := 2147483647

/-- Smallest value of the C type `int`. -/
def INT_MIN : Int := -2147483648

/-- Signed 32-bit addition `a + b` of C.  Overflow is undefined behaviour: no result. -/
def addInt (a b : Int) : Option Int :=
  if INT_MIN ≤ a + b ∧ a + b ≤ INT_MAX then some (a + b) else none

/-- Single-precision arithmetic used by `compute_scalar`: the type `float`, its
arithmetic and the two functions of `hls_math.h`.  `toRat` is the exact value of a
(finite) float, which is always a rational number. -/
structure FloatOps where
  /-- The C type `float`. -/
  F : Type
  /-- The literal `0.0f`. -/
  zero : F
  /-- Conversion `(float)n` of an `int`. -/
  ofInt : Int → F
  /-- Operator `+` on `float`. -/
  add : F → F → F
  /-- Operator `-` on `float`. -/
  sub : F → F → F
  /-- Operator `*` on `float`. -/
  mul : F → F → F
  /-- Function `hls::sinf`. -/
  sinf : F → F
  /-- Function `hls::cosf`. -/
  cosf : F → F
  /-- Exact value of a float. -/
  toRat : F → ℚ

/-- Conversion of a rational value to an integer as the C cast `(int32_t)x` does it
for a float `x` of that value: the quotient of numerator by denominator with the
division that rounds toward zero. -/
def truncToZero (q : ℚ) : Int := Int.tdiv q.num (q.den : Int)

/-- The cast `(int32_t)result_f`.  For a value outside the range of `int32_t` the C cast
is undefined; the embedding keeps the mathematical truncation there. -/
def castInt32 (M : FloatOps) (x : M.F) : Int := truncToZero (M.toRat x)

/-- One term `hls::sinf(val_a + j) * hls::cosf(val_b - j)` of the accumulation;
the `int` `j` is converted to `float` by the usual arithmetic conversions. -/
def term (M : FloatOps) (val_a val_b : M.F) (j : Int) : M.F :=
  M.mul (M.sinf (M.add val_a (M.ofInt j))) (M.cosf (M.sub val_b (M.ofInt j)))

/-- The loop `compute_loop: for (int j = 0; j < 5; ++j) result_f += ...`, entered
with counter `j` and accumulator `result_f`. -/
def compute_loop (M : FloatOps) (val_a val_b : M.F) (j : Int) (result_f : M.F) : M.F :=
  if j < 5 then
    compute_loop M val_a val_b (j + 1) (M.add result_f (term M val_a val_b j))
  else
    result_f
termination_by (5 - j).toNat
decreasing_by omega

/-- The function `compute_scalar` of the source. -/
def compute_scalar (M : FloatOps) (a b : Int) : Int :=
  let result_f := M.zero
  let val_a := M.ofInt a
  let val_b := M.ofInt b
  castInt32 M (compute_loop M val_a val_b 0 result_f)

/-- One element access of the kernel, by the `index` used in the subscript. -/
inductive Access where
  /-- The read `in1[index]`. -/
  | readIn1 (index : Int)
  /-- The read `in2[index]`. -/
  | readIn2 (index : Int)
  /-- The write `out[index] = result`. -/
  | writeOut (index : Int)
deriving DecidableEq, Repr

/-- Machine state: global memory, the accesses performed so far and the number of
completed iterations of `main_loop_i`. -/
structure State where
  /-- Contents of global memory, by word address. -/
  mem : Int → Int
  /-- Accesses performed so far, oldest first. -/
  trace : List Access
  /-- Number of completed iterations of the outer loop `main_loop_i`. -/
  iterations : Nat

/-- State at the call of a kernel: memory `mem`, nothing accessed, no iteration done. -/
def initState (mem : Int → Int) : State := { mem := mem, trace := [], iterations := 0 }

/-- The guarded block of `task_parallel_loop_k` (lines 102-109): load `in1[index]`
and `in2[index]`, call `compute_scalar`, store the result to `out[index]`. -/
def element_step (M : FloatOps) (in1 in2 out : Int) (s : State) (index : Int) : State :=
  let a := s.mem (in1 + index)
  let b := s.mem (in2 + index)
  let result := compute_scalar M a b
  { s with
    mem := Function.update s.mem (out + index) result
    trace := s.trace ++ [Access.readIn1 index, Access.readIn2 index, Access.writeOut index] }

/-- The loop `task_parallel_loop_k: for (int k = 0; k < N_PIPELINES; k++)`, with the
group width as parameter `P`, entered with counter `k` inside the outer iteration `i`. -/
def task_parallel_loop_k (M : FloatOps) (P : ℕ+) (in1 in2 out size i : Int)
    (k : Int) (s : State) : Option State :=
  if k < (P : Int) then
    match addInt i k with
    | none => none
    | some index =>
      if index < size then
        task_parallel_loop_k M P in1 in2 out size i (k + 1) (element_step M in1 in2 out s index)
      else
        task_parallel_loop_k M P in1 in2 out size i (k + 1) s
  else
    some s
termination_by ((P : Int) - k).toNat
decreasing_by all_goals omega

set_option linter.unusedVariables false in
/-- The loop `main_loop_i: for (int i = 0; i < size; i += N_PIPELINES)`, with the
group width as parameter `P`, entered with counter `i`. -/
def main_loop_i (M : FloatOps) (P : ℕ+) (in1 in2 out size : Int)
    (i : Int) (s : State) : Option State :=
  if i < size then
    match task_parallel_loop_k M P in1 in2 out size i 0 s with
    | none => none
    | some s' =>
      match h : addInt i (P : Int) with
      | none => none
      | some i' => main_loop_i M P in1 in2 out size i' { s' with iterations := s'.iterations + 1 }
  else
    some s
termination_by (size - i).toNat
decreasing_by
  have hP : (0 : Int) < (P : Int) := by exact_mod_cast P.pos
  unfold addInt at h
  split at h
  · simp only [Option.some.injEq] at h
    omega
  · exact absurd h (by simp)

/-- The macro `N_PIPELINES`. -/
def N_PIPELINES : ℕ+ := 8

/-- The kernel with group width `P`, started on memory `mem`: the final state, or
`none` when the execution runs into a signed overflow. -/
def krnl_chunked (M : FloatOps) (P : ℕ+) (in1 in2 out size : Int) (mem : Int → Int) :
    Option State :=
  main_loop_i M P in1 in2 out size 0 (initState mem)

/-- The kernel `krnl_heavy_compute_parallel(in1, in2, out, size)` of the source. -/
def krnl_heavy_compute_parallel (M : FloatOps) (in1 in2 out size : Int)
    (mem : Int → Int) : Option State :=
  krnl_chunked M N_PIPELINES in1 in2 out size mem

/-- Indices `lo, lo + 1, ..., lo + n - 1`. -/
def intRange (lo : Int) : Nat → List Int
  | 0 => []
  | n + 1 => lo :: intRange (lo + 1) n

/-- Performing the per-element step for the indices of `order`, one after the
other in the order of the list. -/
def run_order (M : FloatOps) (in1 in2 out : Int) (order : List Int) (s : State) : State :=
  order.foldl (element_step M in1 in2 out) s

/-- The plain sequential loop `for i in 0..size-1: out[i] = compute_scalar(in1[i], in2[i])`,
entered with counter `i`. -/
def sequential_loop (M : FloatOps) (in1 in2 out size : Int) (i : Int) (s : State) : State :=
  if i < size then
    sequential_loop M in1 in2 out size (i + 1) (element_step M in1 in2 out s i)
  else
    s
termination_by (size - i).toNat
decreasing_by omega

/-- The sequential reference kernel started on memory `mem`. -/
def krnl_sequential (M : FloatOps) (in1 in2 out size : Int) (mem : Int → Int) : State :=
  sequential_loop M in1 in2 out size 0 (initState mem)

/-- Number of groups of width `P` needed for `d` elements: `ceil(d / P)` when `d >= 0`,
and 0 when `d < 0`. -/
def groupCount (P : ℕ+) (d : Int) : Nat := ((d + (P : Int) - 1) / (P : Int)).toNat

/-- The three accesses of the per-element step at `index`, in program order. -/
def accessesOf (index : Int) : List Access :=
  [Access.readIn1 index, Access.readIn2 index, Access.writeOut index]

/-- Contents of the output buffer `out[0], ..., out[size - 1]` in state `s`. -/
def outputBuffer (out size : Int) (s : State) : List Int :=
  (intRange 0 size.toNat).map (fun i => s.mem (out + i))

/-- The accumulator as the specification words it: start from 0 and add, for
`j = 0, 1, 2, 3, 4` in that order, `sin(float(a) + j) * cos(float(b) - j)`. -/
def spec_accumulator (M : FloatOps) (a b : Int) : M.F :=
  [0, 1, 2, 3, 4].foldl
    (fun acc j => M.add acc
      (M.mul (M.sinf (M.add (M.ofInt a) (M.ofInt j))) (M.cosf (M.sub (M.ofInt b) (M.ofInt j)))))
    M.zero

/-- Truncation toward zero as the specification words it: the fractional part is
discarded, so a non-negative value goes down to its floor and a negative value goes
up to its ceiling. -/
def spec_truncate (q : ℚ) : Int := if 0 ≤ q then ⌊q⌋ else ⌈q⌉

/-- A small concrete arithmetic to instantiate the parameter `FloatOps` with at
concrete inputs: integers with exact `+`, `-`, `*`, with `sinf x = x` and `cosf x = 1`.
It makes `compute_scalar a b = 5 * a + 10`; it is not a model of IEEE floats. -/
def intModel : FloatOps where
  F := Int
  zero := 0
  ofInt := fun n => n
  add := fun x y => x + y
  sub := fun x y => x - y
  mul := fun x y => x * y
  sinf := fun x => x
  cosf := fun _ => 1
  toRat := fun x => (x : ℚ)

/-- Properties of IEEE-754 single-precision arithmetic and of the two library functions, for
a rounding function `rnd` (the value a real result is rounded to): rounding is monotone and
leaves the integers `-5, ..., 5` as they are (they are representable); `0.0f` has value 0;
on operands of absolute value at most 5 (no overflow) `+` and `*` give the rounded exact
result; `hls::sinf` and `hls::cosf` give values in `[-1, 1]`. -/
structure RoundedArith (M : FloatOps) (rnd : ℚ → ℚ) : Prop where
  /-- Rounding is monotone. -/
  rnd_mono : Monotone rnd
  /-- The integers from -5 to 5 are representable. -/
  rnd_int : ∀ n : Int, |n| ≤ 5 → rnd (n : ℚ) = (n : ℚ)
  /-- Value of `0.0f`. -/
  zero_val : M.toRat M.zero = 0
  /-- Value of a sum of small operands. -/
  add_val : ∀ x y : M.F, |M.toRat x| ≤ 5 → |M.toRat y| ≤ 5 →
    M.toRat (M.add x y) = rnd (M.toRat x + M.toRat y)
  /-- Value of a product of small operands. -/
  mul_val : ∀ x y : M.F, |M.toRat x| ≤ 5 → |M.toRat y| ≤ 5 →
    M.toRat (M.mul x y) = rnd (M.toRat x * M.toRat y)
  /-- Range of `hls::sinf`. -/
  sinf_range : ∀ x : M.F, |M.toRat (M.sinf x)| ≤ 1
  /-- Range of `hls::cosf`. -/
  cosf_range : ∀ x : M.F, |M.toRat (M.cosf x)| ≤ 1

/-- A second concrete arithmetic to instantiate the parameter `FloatOps` with: rationals
with exact `+`, `-`, `*`, and for `sinf`, `cosf` the rational functions `2x / (1 + x^2)` and
`(1 - x^2) / (1 + x^2)`, which are the sine and cosine of the angle `2 * arctan x` and so
take values in `[-1, 1]`.  It is not a model of IEEE floats. -/
def circleModel : FloatOps where
  F := ℚ
  zero := 0
  ofInt := fun n => (n : ℚ)
  add := fun x y => x + y
  sub := fun x y => x - y
  mul := fun x y => x * y
  sinf := fun x => 2 * x / (1 + x ^ 2)
  cosf := fun x => (1 - x ^ 2) / (1 + x ^ 2)
  toRat := fun x => x

namespace device

/-- The constant `device::GPU_CL`. -/
def GPU_CL : String := "gpu_opencl"

/-- The constant `device::GPU_MTL`. -/
def GPU_MTL : String := "gpu_metal"

/-- The constant `device::FPGA`. -/
def FPGA : String := "fpga"

/-- The constant `device::CPU_FF`. -/
def CPU_FF : String := "cpu_ff"

/-- The constant `device::CPU_OMP`. -/
def CPU_OMP : String := "cpu_omp"

end device

/-- The five constants declared in namespace `device` of `device_constants.h`, by name. -/
inductive DeviceConstant where
  /-- The name `GPU_CL`. -/
  | GPU_CL
  /-- The name `GPU_MTL`. -/
  | GPU_MTL
  /-- The name `FPGA`. -/
  | FPGA
  /-- The name `CPU_FF`. -/
  | CPU_FF
  /-- The name `CPU_OMP`. -/
  | CPU_OMP
deriving DecidableEq, Repr

/-- The string a constant of namespace `device` is initialised with. -/
def DeviceConstant.label : DeviceConstant → String
  | .GPU_CL => device.GPU_CL
  | .GPU_MTL => device.GPU_MTL
  | .FPGA => device.FPGA
  | .CPU_FF => device.CPU_FF
  | .CPU_OMP => device.CPU_OMP

/-! ## Arithmetic and index lists -/

theorem addInt_eq_some {a b : Int} (h1 : INT_MIN ≤ a + b) (h2 : a + b ≤ INT_MAX) :
    addInt a b = some (a + b) := by
  unfold addInt
  rw [if_pos ⟨h1, h2⟩]

theorem addInt_eq_none {a b : Int} (h : INT_MAX < a + b) : addInt a b = none := by
  unfold addInt
  rw [if_neg]
  intro hc
  omega

theorem mem_intRange {x lo : Int} {n : Nat} :
    x ∈ intRange lo n ↔ lo ≤ x ∧ x < lo + n := by
  induction n generalizing lo with
  | zero => simp [intRange]
  | succ n ih =>
    simp only [intRange, List.mem_cons, ih]
    push_cast
    omega

theorem nodup_intRange (lo : Int) (n : Nat) : (intRange lo n).Nodup := by
  induction n generalizing lo with
  | zero => simp [intRange]
  | succ n ih =>
    simp only [intRange, List.nodup_cons]
    refine ⟨?_, ih _⟩
    rw [mem_intRange]
    omega

theorem length_intRange (lo : Int) (n : Nat) : (intRange lo n).length = n := by
  induction n generalizing lo with
  | zero => simp [intRange]
  | succ n ih => simp [intRange, ih]

theorem intRange_append (lo : Int) (a b : Nat) :
    intRange lo (a + b) = intRange lo a ++ intRange (lo + a) b := by
  induction a generalizing lo with
  | zero => simp [intRange]
  | succ a ih =>
    have h : a + 1 + b = (a + b) + 1 := by omega
    rw [h]
    simp only [intRange, List.cons_append, ih]
    have e : lo + 1 + (a : Int) = lo + ((a + 1 : Nat) : Int) := by push_cast; ring
    rw [e]

theorem filter_lt_intRange (size lo : Int) (n : Nat) :
    (intRange lo n).filter (fun x => decide (x < size)) = intRange lo (min n (size - lo).toNat) := by
  induction n generalizing lo with
  | zero => simp [intRange]
  | succ n ih =>
    simp only [intRange]
    by_cases h : lo < size
    · rw [List.filter_cons_of_pos (by simpa using h), ih]
      have e : min (n + 1) (size - lo).toNat = min n (size - (lo + 1)).toNat + 1 := by omega
      rw [e]
      simp only [intRange]
    · rw [List.filter_cons_of_neg (by simpa using h), ih]
      have e1 : min n (size - (lo + 1)).toNat = 0 := by omega
      have e2 : min (n + 1) (size - lo).toNat = 0 := by omega
      rw [e1, e2]
      simp only [intRange]

/-! ## The loops as folds of the per-element step -/

theorem INT_MAX_eq : INT_MAX = 2147483647 := rfl

theorem INT_MIN_eq : INT_MIN = -2147483648 := rfl

theorem run_order_nil (M : FloatOps) (in1 in2 out : Int) (s : State) :
    run_order M in1 in2 out [] s = s := rfl

theorem run_order_cons (M : FloatOps) (in1 in2 out : Int) (x : Int) (l : List Int) (s : State) :
    run_order M in1 in2 out (x :: l) s
      = run_order M in1 in2 out l (element_step M in1 in2 out s x) := rfl

theorem run_order_append (M : FloatOps) (in1 in2 out : Int) (l1 l2 : List Int) (s : State) :
    run_order M in1 in2 out (l1 ++ l2) s
      = run_order M in1 in2 out l2 (run_order M in1 in2 out l1 s) := by
  simp [run_order, List.foldl_append]

/-- The per-element steps do not touch the iteration counter. -/
theorem run_order_iterations (M : FloatOps) (in1 in2 out : Int) (l : List Int) :
    ∀ s : State, (run_order M in1 in2 out l s).iterations = s.iterations := by
  induction l with
  | nil => intro s; rfl
  | cons x l ih => intro s; rw [run_order_cons, ih]; rfl

/-- Setting the iteration counter commutes with the per-element steps. -/
theorem run_order_set_iterations (M : FloatOps) (in1 in2 out : Int) (l : List Int) (n : Nat) :
    ∀ s : State, run_order M in1 in2 out l { s with iterations := n }
      = { run_order M in1 in2 out l s with iterations := n } := by
  induction l with
  | nil => intro s; rfl
  | cons x l ih =>
    intro s
    rw [run_order_cons, run_order_cons, ← ih]
    rfl

/-- An empty or negative range needs no group. -/
theorem groupCount_nonpos (P : ℕ+) {d : Int} (h : d ≤ 0) : groupCount P d = 0 := by
  have hP : (0 : Int) < (P : Int) := by exact_mod_cast P.pos
  unfold groupCount
  have h1 : (d + (P : Int) - 1) / (P : Int) ≤ 0 := by
    have h2 : (d + (P : Int) - 1) / (P : Int) < 1 := by
      rw [Int.ediv_lt_iff_lt_mul hP]
      omega
    omega
  omega

/-- A non-empty range needs one group more than what is left after its first group. -/
theorem groupCount_pos (P : ℕ+) {d : Int} (h : 0 < d) :
    groupCount P d = groupCount P (d - (P : Int)) + 1 := by
  have hP : (0 : Int) < (P : Int) := by exact_mod_cast P.pos
  unfold groupCount
  have e : d + (P : Int) - 1 = (d - (P : Int) + (P : Int) - 1) + 1 * (P : Int) := by ring
  rw [e, Int.add_mul_ediv_right _ _ (ne_of_gt hP)]
  have h0 : 0 ≤ (d - (P : Int) + (P : Int) - 1) / (P : Int) :=
    Int.ediv_nonneg (by omega) (le_of_lt hP)
  omega

/-- With the width 8 of the source the number of groups is `ceil(d / 8)`. -/
theorem groupCount_eight (d : Int) : groupCount N_PIPELINES d = ((d + 7) / 8).toNat := by
  unfold groupCount
  have e : ((N_PIPELINES : ℕ+) : Int) = 8 := rfl
  rw [e]
  congr 2
  omega

/-- The inner loop, entered at `k` with `n` iterations left and no overflow ahead,
performs the per-element step for those of the indices `i + k, ..., i + P - 1` that are
below `size`, in ascending order. -/
theorem task_parallel_loop_k_eq (M : FloatOps) (P : ℕ+) (in1 in2 out size i : Int) (n : Nat) :
    ∀ (k : Int) (s : State), (P : Int) - k = n → INT_MIN ≤ i + k → i + P ≤ INT_MAX + 1 →
      task_parallel_loop_k M P in1 in2 out size i k s
        = some (run_order M in1 in2 out
            ((intRange (i + k) n).filter (fun x => decide (x < size))) s) := by
  induction n with
  | zero =>
    intro k s hk _ _
    rw [task_parallel_loop_k, if_neg (by omega)]
    simp [intRange, run_order]
  | succ n ih =>
    intro k s hk hlo hhi
    rw [task_parallel_loop_k, if_pos (by omega), addInt_eq_some hlo (by omega)]
    simp only
    have hk' : (P : Int) - (k + 1) = n := by omega
    have e : i + (k + 1) = i + k + 1 := by ring
    by_cases h : i + k < size
    · rw [if_pos h, ih (k + 1) _ hk' (by omega) hhi, e]
      simp only [intRange]
      rw [List.filter_cons_of_pos (by simpa using h), run_order_cons]
    · rw [if_neg h, ih (k + 1) _ hk' (by omega) hhi, e]
      simp only [intRange]
      rw [List.filter_cons_of_neg (by simpa using h)]

/-- One whole group: the inner loop entered at `k = 0`. -/
theorem task_parallel_loop_k_zero (M : FloatOps) (P : ℕ+) (in1 in2 out size i : Int) (s : State)
    (hi : 0 ≤ i) (hhi : i + P ≤ INT_MAX + 1) :
    task_parallel_loop_k M P in1 in2 out size i 0 s
      = some (run_order M in1 in2 out (intRange i (min (P : Nat) (size - i).toNat)) s) := by
  have h := task_parallel_loop_k_eq M P in1 in2 out size i (P : Nat) 0 s (by simp)
    (by rw [INT_MIN_eq]; omega) hhi
  rw [h, add_zero, filter_lt_intRange]

/-- When `size + P - 1` is representable, the outer loop entered at `i >= 0` returns,
having performed the per-element step for `i, i + 1, ..., size - 1` in that order, in
`ceil((size - i) / P)` iterations. -/
theorem main_loop_i_eq (M : FloatOps) (P : ℕ+) (in1 in2 out size : Int)
    (hsize : size + P ≤ INT_MAX + 1) (n : Nat) :
    ∀ (i : Int) (s : State), (size - i).toNat ≤ n → 0 ≤ i →
      main_loop_i M P in1 in2 out size i s
        = some { run_order M in1 in2 out (intRange i (size - i).toNat) s with
            iterations := s.iterations + groupCount P (size - i) } := by
  have hP : (0 : Int) < (P : Int) := by exact_mod_cast P.pos
  induction n with
  | zero =>
    intro i s hn hi
    rw [main_loop_i, if_neg (by omega)]
    have e : (size - i).toNat = 0 := by omega
    rw [e, groupCount_nonpos P (by omega)]
    rfl
  | succ n ih =>
    intro i s hn hi
    by_cases h : i < size
    · rw [main_loop_i, if_pos h, task_parallel_loop_k_zero M P in1 in2 out size i s hi (by omega)]
      simp only
      have hadd : addInt i (P : Int) = some (i + P) :=
        addInt_eq_some (by rw [INT_MIN_eq]; omega) (by omega)
      split
      · rename_i hnone
        rw [hadd] at hnone
        exact absurd hnone (by simp)
      · rename_i i' hsome
        rw [hadd] at hsome
        simp only [Option.some.injEq] at hsome
        subst hsome
        rw [ih (i + P) _ (by omega) (by omega), run_order_set_iterations, ← run_order_append,
          run_order_iterations, groupCount_pos P (show 0 < size - i by omega)]
        have el : intRange i (min (P : Nat) (size - i).toNat)
            ++ intRange (i + P) (size - (i + P)).toNat = intRange i (size - i).toNat := by
          by_cases hc : (P : Int) ≤ size - i
          · have e1 : min (P : Nat) (size - i).toNat = (P : Nat) := by omega
            have e2 : (size - i).toNat = (P : Nat) + (size - (i + P)).toNat := by omega
            rw [e1, e2, intRange_append]
          · have e1 : min (P : Nat) (size - i).toNat = (size - i).toNat := by omega
            have e2 : (size - (i + P)).toNat = 0 := by omega
            rw [e1, e2]
            simp [intRange]
        have eg : size - (i + (P : Int)) = size - i - (P : Int) := by ring
        rw [el, eg]
        simp only [Option.some.injEq, State.mk.injEq, true_and]
        omega
    · rw [main_loop_i, if_neg h]
      have e : (size - i).toNat = 0 := by omega
      rw [e, groupCount_nonpos P (by omega)]
      rfl

/-- The sequential loop entered at `i` performs the per-element step for
`i, i + 1, ..., size - 1` in that order. -/
theorem sequential_loop_eq (M : FloatOps) (in1 in2 out size : Int) (n : Nat) :
    ∀ (i : Int) (s : State), (size - i).toNat = n →
      sequential_loop M in1 in2 out size i s
        = run_order M in1 in2 out (intRange i (size - i).toNat) s := by
  induction n with
  | zero =>
    intro i s hn
    rw [sequential_loop, if_neg (by omega), hn]
    rfl
  | succ n ih =>
    intro i s hn
    rw [sequential_loop, if_pos (by omega), ih (i + 1) _ (by omega), hn]
    have e : (size - (i + 1)).toNat = n := by omega
    rw [e]
    rfl

theorem N_PIPELINES_eq : ((N_PIPELINES : ℕ+) : Int) = 8 := rfl

/-- In-range sizes: the kernel with group width `P` returns, and its final state is that
of the per-element steps for `0, 1, ..., size - 1` in ascending order. -/
theorem krnl_chunked_eq (M : FloatOps) (P : ℕ+) (in1 in2 out size : Int) (mem : Int → Int)
    (hsize : size + P ≤ INT_MAX + 1) :
    krnl_chunked M P in1 in2 out size mem
      = some { run_order M in1 in2 out (intRange 0 size.toNat) (initState mem) with
          iterations := groupCount P size } := by
  unfold krnl_chunked
  rw [main_loop_i_eq M P in1 in2 out size hsize (size - 0).toNat 0 _ le_rfl le_rfl, sub_zero]
  simp [initState]

/-- Sizes up to `2^31 - 8`: the kernel of the source returns. -/
theorem krnl_heavy_compute_parallel_eq (M : FloatOps) (in1 in2 out size : Int)
    (mem : Int → Int) (hsize : size ≤ 2147483640) :
    krnl_heavy_compute_parallel M in1 in2 out size mem
      = some { run_order M in1 in2 out (intRange 0 size.toNat) (initState mem) with
          iterations := groupCount N_PIPELINES size } := by
  unfold krnl_heavy_compute_parallel
  exact krnl_chunked_eq M N_PIPELINES in1 in2 out size mem
    (by rw [N_PIPELINES_eq, INT_MAX_eq]; omega)

theorem krnl_sequential_eq (M : FloatOps) (in1 in2 out size : Int) (mem : Int → Int) :
    krnl_sequential M in1 in2 out size mem
      = run_order M in1 in2 out (intRange 0 size.toNat) (initState mem) := by
  unfold krnl_sequential
  rw [sequential_loop_eq M in1 in2 out size (size - 0).toNat 0 _ rfl, sub_zero]

/-- Sizes from `2^31 - 7` on: entered at a multiple of 8, the outer loop of the source
runs into the signed overflow of `i += N_PIPELINES`. -/
theorem main_loop_i_overflow (M : FloatOps) (in1 in2 out size : Int)
    (h1 : 2147483641 ≤ size) (n : Nat) :
    ∀ (i : Int) (s : State), 0 ≤ i → (8 : Int) ∣ i → i ≤ 2147483640 →
      (2147483647 - i).toNat ≤ n →
      main_loop_i M N_PIPELINES in1 in2 out size i s = none := by
  induction n with
  | zero =>
    intro i s _ _ hi hn
    omega
  | succ n ih =>
    intro i s h0 hdvd hi hn
    rw [main_loop_i, if_pos (by omega),
      task_parallel_loop_k_zero M N_PIPELINES in1 in2 out size i s h0
        (by rw [N_PIPELINES_eq, INT_MAX_eq]; omega)]
    simp only
    by_cases hc : i + 8 ≤ 2147483647
    · have hadd : addInt i ((N_PIPELINES : ℕ+) : Int) = some (i + 8) := by
        rw [N_PIPELINES_eq]
        exact addInt_eq_some (by rw [INT_MIN_eq]; omega) (by rw [INT_MAX_eq]; omega)
      split
      · rfl
      · rename_i i' hsome
        rw [hadd] at hsome
        simp only [Option.some.injEq] at hsome
        subst hsome
        exact ih (i + 8) _ (by omega) (by omega) (by omega) (by omega)
    · have hadd : addInt i ((N_PIPELINES : ℕ+) : Int) = none := by
        rw [N_PIPELINES_eq]
        exact addInt_eq_none (by rw [INT_MAX_eq]; omega)
      split
      · rfl
      · rename_i i' hsome
        rw [hadd] at hsome
        exact absurd hsome (by simp)

/-- Sizes from `2^31 - 7` on: the kernel of the source has no defined result. -/
theorem krnl_heavy_compute_parallel_overflow (M : FloatOps) (in1 in2 out size : Int)
    (mem : Int → Int) (h1 : 2147483641 ≤ size) :
    krnl_heavy_compute_parallel M in1 in2 out size mem = none := by
  unfold krnl_heavy_compute_parallel krnl_chunked
  exact main_loop_i_overflow M in1 in2 out size h1 2147483647 0 _ le_rfl (by decide)
    (by decide) (by simp)

/-! ## Memory and trace after a sequence of per-element steps -/

theorem run_order_trace (M : FloatOps) (in1 in2 out : Int) (l : List Int) :
    ∀ s : State, (run_order M in1 in2 out l s).trace = s.trace ++ l.flatMap accessesOf := by
  induction l with
  | nil => intro s; simp [run_order]
  | cons x l ih =>
    intro s
    rw [run_order_cons, ih]
    simp [element_step, accessesOf]

/-- A cell that is not `out[x]` for any processed index `x` keeps its value. -/
theorem run_order_mem_frame (M : FloatOps) (in1 in2 out : Int) (addr : Int) (l : List Int) :
    ∀ s : State, (∀ x ∈ l, addr ≠ out + x) →
      (run_order M in1 in2 out l s).mem addr = s.mem addr := by
  induction l with
  | nil => intro s _; rfl
  | cons x l ih =>
    intro s h
    rw [run_order_cons, ih _ (fun y hy => h y (List.mem_cons_of_mem _ hy))]
    simp only [element_step]
    exact Function.update_noteq (h x (List.mem_cons_self _ _)) _ _

/-- When the indices are processed once each and no `out[x]` is the cell of an input
element at another index, every processed `out[idx]` ends up holding `compute_scalar` of
the initial `in1[idx]` and `in2[idx]`. -/
theorem run_order_mem_out (M : FloatOps) (in1 in2 out : Int) (l : List Int) :
    ∀ s : State, l.Nodup →
      (∀ x ∈ l, ∀ y ∈ l, x ≠ y → out + x ≠ in1 + y ∧ out + x ≠ in2 + y) →
      ∀ idx ∈ l, (run_order M in1 in2 out l s).mem (out + idx)
        = compute_scalar M (s.mem (in1 + idx)) (s.mem (in2 + idx)) := by
  induction l with
  | nil => intro s _ _ idx hidx; simp at hidx
  | cons x l ih =>
    intro s hnd hal idx hidx
    rw [List.nodup_cons] at hnd
    rw [run_order_cons]
    rcases List.mem_cons.mp hidx with rfl | hmem
    · rw [run_order_mem_frame M in1 in2 out (out + idx) l _
        (fun y hy hc => hnd.1 (by have : idx = y := by omega
                                  rw [this]; exact hy))]
      simp [element_step]
    · have hne : idx ≠ x := fun hc => hnd.1 (hc ▸ hmem)
      rw [ih _ hnd.2 (fun a ha b hb hab =>
        hal a (List.mem_cons_of_mem _ ha) b (List.mem_cons_of_mem _ hb) hab) idx hmem]
      have hx := hal x (List.mem_cons_self _ _) idx hidx (Ne.symm hne)
      simp only [element_step]
      rw [Function.update_noteq (Ne.symm hx.1), Function.update_noteq (Ne.symm hx.2)]

theorem count_accessesOf_readIn1 (idx x : Int) :
    (accessesOf x).count (Access.readIn1 idx) = if x = idx then 1 else 0 := by
  by_cases h : x = idx <;> simp [accessesOf, List.count_cons, h]

theorem count_accessesOf_readIn2 (idx x : Int) :
    (accessesOf x).count (Access.readIn2 idx) = if x = idx then 1 else 0 := by
  by_cases h : x = idx <;> simp [accessesOf, List.count_cons, h]

theorem count_accessesOf_writeOut (idx x : Int) :
    (accessesOf x).count (Access.writeOut idx) = if x = idx then 1 else 0 := by
  by_cases h : x = idx <;> simp [accessesOf, List.count_cons, h]

/-- In the trace of a duplicate-free index list, an access occurs once if its index is in
the list and not at all otherwise. -/
theorem count_flatMap_accessesOf (a : Access) (idx : Int)
    (ha : ∀ x, (accessesOf x).count a = if x = idx then 1 else 0) (l : List Int) :
    l.Nodup → (l.flatMap accessesOf).count a = if idx ∈ l then 1 else 0 := by
  induction l with
  | nil => intro _; simp
  | cons x l ih =>
    intro hnd
    rw [List.nodup_cons] at hnd
    rw [List.flatMap_cons, List.count_append, ih hnd.2, ha]
    by_cases hx : x = idx
    · subst hx
      simp [hnd.1]
    · have hx' : ¬ idx = x := fun h => hx h.symm
      simp [hx, hx']

theorem length_flatMap_accessesOf (l : List Int) :
    (l.flatMap accessesOf).length = 3 * l.length := by
  induction l with
  | nil => simp
  | cons x l ih =>
    rw [List.flatMap_cons, List.length_append, ih]
    simp [accessesOf]
    omega

/-! ## The kernel on sizes up to `2^31 - 8` -/

/-- Sizes up to `2^31 - 8`, `out[0..size)` sharing no cell with `in1[0..size)` and
`in2[0..size)`: the kernel returns and `out[i]` holds `compute_scalar(in1[i], in2[i])`
for every `i` in `[0, size)`. -/
theorem krnl_output_in_range (M : FloatOps) (in1 in2 out size : Int) (mem : Int → Int)
    (hsize : size ≤ 2147483640)
    (hal : ∀ j k : Int, 0 ≤ j → j < size → 0 ≤ k → k < size →
      out + j ≠ in1 + k ∧ out + j ≠ in2 + k) :
    ∃ s, krnl_heavy_compute_parallel M in1 in2 out size mem = some s ∧
      ∀ i : Int, 0 ≤ i → i < size →
        s.mem (out + i) = compute_scalar M (mem (in1 + i)) (mem (in2 + i)) := by
  refine ⟨_, krnl_heavy_compute_parallel_eq M in1 in2 out size mem hsize, ?_⟩
  intro i h0 h1
  refine run_order_mem_out M in1 in2 out _ _ (nodup_intRange _ _) ?_ i ?_
  · intro x hx y hy _
    rw [mem_intRange] at hx hy
    exact hal x y (by omega) (by omega) (by omega) (by omega)
  · rw [mem_intRange]
    omega

/-- Sizes up to `2^31 - 8`: the kernel returns and every cell other than
`out[0], ..., out[size - 1]` holds the value it held before the call. -/
theorem krnl_frame_in_range (M : FloatOps) (in1 in2 out size : Int) (mem : Int → Int)
    (hsize : size ≤ 2147483640) :
    ∃ s, krnl_heavy_compute_parallel M in1 in2 out size mem = some s ∧
      ∀ addr : Int, (∀ j : Int, 0 ≤ j → j < size → addr ≠ out + j) → s.mem addr = mem addr := by
  refine ⟨_, krnl_heavy_compute_parallel_eq M in1 in2 out size mem hsize, ?_⟩
  intro addr h
  refine run_order_mem_frame M in1 in2 out addr _ _ ?_
  intro x hx
  rw [mem_intRange] at hx
  exact h x (by omega) (by omega)

/-- Sizes up to `2^31 - 8`: the kernel returns, and its accesses are, for
`i = 0, ..., size - 1` in that order, one read of `in1[i]`, one read of `in2[i]` and one write
of `out[i]`; an access at an index outside `[0, size)` does not occur. -/
theorem krnl_trace_in_range (M : FloatOps) (in1 in2 out size : Int) (mem : Int → Int)
    (hsize : size ≤ 2147483640) :
    ∃ s, krnl_heavy_compute_parallel M in1 in2 out size mem = some s ∧
      s.trace = (intRange 0 size.toNat).flatMap accessesOf ∧
      s.trace.length = 3 * size.toNat ∧
      ∀ idx : Int,
        s.trace.count (Access.readIn1 idx) = (if 0 ≤ idx ∧ idx < size then 1 else 0) ∧
        s.trace.count (Access.readIn2 idx) = (if 0 ≤ idx ∧ idx < size then 1 else 0) ∧
        s.trace.count (Access.writeOut idx) = (if 0 ≤ idx ∧ idx < size then 1 else 0) := by
  refine ⟨_, krnl_heavy_compute_parallel_eq M in1 in2 out size mem hsize, ?_⟩
  have ht : (run_order M in1 in2 out (intRange 0 size.toNat) (initState mem)).trace
      = (intRange 0 size.toNat).flatMap accessesOf := by
    rw [run_order_trace]
    rfl
  have hm : ∀ idx : Int, idx ∈ intRange 0 size.toNat ↔ (0 ≤ idx ∧ idx < size) := by
    intro idx
    rw [mem_intRange]
    omega
  refine ⟨ht, ?_, ?_⟩
  · rw [ht, length_flatMap_accessesOf, length_intRange]
  · intro idx
    rw [ht]
    refine ⟨?_, ?_, ?_⟩
    · rw [count_flatMap_accessesOf _ idx (count_accessesOf_readIn1 idx) _ (nodup_intRange _ _)]
      simp only [hm]
    · rw [count_flatMap_accessesOf _ idx (count_accessesOf_readIn2 idx) _ (nodup_intRange _ _)]
      simp only [hm]
    · rw [count_flatMap_accessesOf _ idx (count_accessesOf_writeOut idx) _ (nodup_intRange _ _)]
      simp only [hm]

/-- Sizes up to `2^31 - 8`: the kernel returns after `ceil(size / 8)` iterations of the
outer loop (none when `size <= 0`). -/
theorem krnl_iterations_in_range (M : FloatOps) (in1 in2 out size : Int) (mem : Int → Int)
    (hsize : size ≤ 2147483640) :
    ∃ s, krnl_heavy_compute_parallel M in1 in2 out size mem = some s ∧
      s.iterations = ((size + 7) / 8).toNat :=
  ⟨_, krnl_heavy_compute_parallel_eq M in1 in2 out size mem hsize, groupCount_eight size⟩

/-! ## The scalar function -/

theorem floor_eq_num_div_den (q : ℚ) : ⌊q⌋ = q.num / (q.den : Int) := by
  rw [← Rat.floor_def']
  rfl

/-- The cast discards the fractional part: floor of a non-negative value, ceiling of a
negative one. -/
theorem truncToZero_eq_spec_truncate (q : ℚ) : truncToZero q = spec_truncate q := by
  unfold truncToZero spec_truncate
  by_cases h : 0 ≤ q
  · rw [if_pos h, floor_eq_num_div_den]
    exact Int.tdiv_eq_ediv (Rat.num_nonneg.mpr h) (Int.ofNat_nonneg _)
  · rw [if_neg h]
    have hn : 0 ≤ (-q).num := Rat.num_nonneg.mpr (by linarith)
    have e : ⌈q⌉ = -⌊-q⌋ := by rw [Int.floor_neg, neg_neg]
    rw [e, floor_eq_num_div_den, Rat.neg_den, ← Int.tdiv_eq_ediv hn (Int.ofNat_nonneg _),
      Rat.neg_num, Int.neg_tdiv, neg_neg]

theorem truncToZero_intCast (n : Int) : truncToZero (n : ℚ) = n := by
  simp [truncToZero]

/-- The five iterations of `compute_loop`, written out. -/
theorem compute_loop_unrolled (M : FloatOps) (val_a val_b r : M.F) :
    compute_loop M val_a val_b 0 r
      = M.add (M.add (M.add (M.add (M.add r (term M val_a val_b 0)) (term M val_a val_b 1))
          (term M val_a val_b 2)) (term M val_a val_b 3)) (term M val_a val_b 4) := by
  rw [compute_loop, if_pos (by decide), compute_loop, if_pos (by decide),
    compute_loop, if_pos (by decide), compute_loop, if_pos (by decide),
    compute_loop, if_pos (by decide), compute_loop, if_neg (by decide)]
  rfl

theorem compute_scalar_eq_spec (M : FloatOps) (a b : Int) :
    compute_scalar M a b = spec_truncate (M.toRat (spec_accumulator M a b)) := by
  unfold compute_scalar castInt32
  rw [truncToZero_eq_spec_truncate]
  simp only [compute_loop_unrolled]
  rfl

theorem compute_scalar_intModel (a b : Int) : compute_scalar intModel a b = 5 * a + 10 := by
  unfold compute_scalar castInt32
  simp only [compute_loop_unrolled]
  have e : intModel.toRat (intModel.add (intModel.add (intModel.add (intModel.add
      (intModel.add intModel.zero (term intModel (intModel.ofInt a) (intModel.ofInt b) 0))
      (term intModel (intModel.ofInt a) (intModel.ofInt b) 1))
      (term intModel (intModel.ofInt a) (intModel.ofInt b) 2))
      (term intModel (intModel.ofInt a) (intModel.ofInt b) 3))
      (term intModel (intModel.ofInt a) (intModel.ofInt b) 4)) = ((5 * a + 10 : Int) : ℚ) := by
    simp only [intModel, term]
    push_cast
    ring
  rw [e, truncToZero_intCast]

/-! ## Claims about the scalar function and small sizes -/

/-- C4: with `size = 0` the kernel returns at once, without entering the loop body: its
trace is empty, so it performs no read of `in1` or `in2` and no write to `out`, and the
memory, hence every element of the three buffers, is the one it was called on, whatever
the buffers contain. -/
theorem C4_size_zero_no_access (M : FloatOps) (in1 in2 out : Int) (mem : Int → Int) :
    krnl_heavy_compute_parallel M in1 in2 out 0 mem
      = some { mem := mem, trace := [], iterations := 0 } := by
  unfold krnl_heavy_compute_parallel krnl_chunked
  rw [main_loop_i, if_neg (by decide)]
  rfl

/-- C8: for all integers `a`, `b` (in particular all 32-bit ones), `compute_scalar a b` is
the truncation toward zero (floor of a non-negative value, ceiling of a negative one) of the
accumulator that starts from 0 and adds `sin(float(a) + j) * cos(float(b) - j)` for
`j = 0, 1, 2, 3, 4` in that order; in particular `compute_scalar 0 0` is the truncation of
that sum with `a = b = 0`, written out term by term. -/
theorem C8_compute_scalar_truncated_sum (M : FloatOps) (a b : Int) :
    compute_scalar M a b = spec_truncate (M.toRat (spec_accumulator M a b)) ∧
    compute_scalar M 0 0 = spec_truncate (M.toRat
      (M.add (M.add (M.add (M.add (M.add M.zero
        (M.mul (M.sinf (M.add (M.ofInt 0) (M.ofInt 0))) (M.cosf (M.sub (M.ofInt 0) (M.ofInt 0)))))
        (M.mul (M.sinf (M.add (M.ofInt 0) (M.ofInt 1))) (M.cosf (M.sub (M.ofInt 0) (M.ofInt 1)))))
        (M.mul (M.sinf (M.add (M.ofInt 0) (M.ofInt 2))) (M.cosf (M.sub (M.ofInt 0) (M.ofInt 2)))))
        (M.mul (M.sinf (M.add (M.ofInt 0) (M.ofInt 3))) (M.cosf (M.sub (M.ofInt 0) (M.ofInt 3)))))
        (M.mul (M.sinf (M.add (M.ofInt 0) (M.ofInt 4))) (M.cosf (M.sub (M.ofInt 0) (M.ofInt 4)))))) := by
  refine ⟨compute_scalar_eq_spec M a b, ?_⟩
  rw [compute_scalar_eq_spec]
  rfl

/-! ## Claims that fail on sizes from `2^31 - 7` on -/

/-- C1 (code defect): called with `size = 2147483647`, the kernel has no defined result,
whatever the buffers and their contents: after the group entered at `i = 2147483640` the
increment `i += N_PIPELINES` overflows `int`.  So there is no state after the call in which
`out[i] = compute_scalar(in1[i], in2[i])` could hold. -/
theorem C1_no_result_at_int_max (M : FloatOps) (in1 in2 out : Int) (mem : Int → Int) :
    krnl_heavy_compute_parallel M in1 in2 out 2147483647 mem = none :=
  krnl_heavy_compute_parallel_overflow M in1 in2 out 2147483647 mem (by decide)

/-- C2 (code defect): called with `size = 2147483641`, the last group of 8, entered at
`i = 2147483640`, is partially out of range; the bounds check holds inside it (the inner loop
performs the step for index 2147483640 only), but the increment `i += 8` that follows
overflows `int`, so the kernel has no defined result and no final contents of `out`, `in1`
and `in2` that could be compared with the initial ones. -/
theorem C2_last_group_then_overflow (M : FloatOps) (in1 in2 out : Int) (s : State)
    (mem : Int → Int) :
    task_parallel_loop_k M N_PIPELINES in1 in2 out 2147483641 2147483640 0 s
      = some (element_step M in1 in2 out s 2147483640) ∧
    addInt 2147483640 ((N_PIPELINES : ℕ+) : Int) = none ∧
    krnl_heavy_compute_parallel M in1 in2 out 2147483641 mem = none := by
  refine ⟨?_, by decide, krnl_heavy_compute_parallel_overflow M in1 in2 out _ mem (by decide)⟩
  rw [task_parallel_loop_k_zero M N_PIPELINES in1 in2 out _ _ s (by decide) (by decide)]
  have e : min ((N_PIPELINES : ℕ+) : Nat) ((2147483641 : Int) - 2147483640).toNat = 1 := by
    decide
  rw [e]
  rfl

/-- C3 (code defect): called with `size = 2147483643`, which is not a multiple of 8, the
kernel has no defined result: the loop counter overflows after the last group, so the
sequence of accesses of the call is not confined to the `3 * size` accesses the claim
describes.  The guard `index < size` does not stop what follows on a target where the
counter wraps around to `-2147483648`: entered with that `i`, the inner loop performs the
per-element step at the eight negative indices `-2147483648, ..., -2147483641`. -/
theorem C3_no_result_at_non_multiple (M : FloatOps) (in1 in2 out : Int) (mem : Int → Int)
    (s : State) :
    krnl_heavy_compute_parallel M in1 in2 out 2147483643 mem = none ∧
    task_parallel_loop_k M N_PIPELINES in1 in2 out 2147483643 (-2147483648) 0 s
      = some (run_order M in1 in2 out (intRange (-2147483648) 8) s) := by
  refine ⟨krnl_heavy_compute_parallel_overflow M in1 in2 out 2147483643 mem (by decide), ?_⟩
  rw [task_parallel_loop_k_eq M N_PIPELINES in1 in2 out 2147483643 (-2147483648) 8 0 s
    (by decide) (by decide) (by decide), filter_lt_intRange]
  rfl

/-! ## Group width, processing order, aliasing, determinism -/

/-- When `size + P - 1` is representable, the kernel with group width `P` returns with
the memory and the access trace of the plain sequential loop. -/
theorem krnl_chunked_eq_sequential (M : FloatOps) (P : ℕ+) (in1 in2 out size : Int)
    (mem : Int → Int) (hsize : size + P ≤ INT_MAX + 1) :
    ∃ s, krnl_chunked M P in1 in2 out size mem = some s ∧
      s.mem = (krnl_sequential M in1 in2 out size mem).mem ∧
      s.trace = (krnl_sequential M in1 in2 out size mem).trace := by
  refine ⟨_, krnl_chunked_eq M P in1 in2 out size mem hsize, ?_, ?_⟩
  · rw [krnl_sequential_eq]
  · rw [krnl_sequential_eq]

/-- C5 (code defect): at `size = 2147483647` the result depends on the group width: with
the code's width 8 the chunked kernel runs into the overflow of `i += 8` and has no
result, while with width 1 it returns with the memory of the plain sequential loop. -/
theorem C5_width_changes_result_at_int_max (M : FloatOps) (in1 in2 out : Int)
    (mem : Int → Int) :
    krnl_chunked M 8 in1 in2 out 2147483647 mem = none ∧
    ∃ s, krnl_chunked M 1 in1 in2 out 2147483647 mem = some s ∧
      s.mem = (krnl_sequential M in1 in2 out 2147483647 mem).mem := by
  refine ⟨krnl_heavy_compute_parallel_overflow M in1 in2 out 2147483647 mem (by decide), ?_⟩
  obtain ⟨s, hs, hm, _⟩ :=
    krnl_chunked_eq_sequential M 1 in1 in2 out 2147483647 mem (by decide)
  exact ⟨s, hs, hm⟩

/-- Sizes up to `2^31 - 8`, non-aliased buffers: performing the per-element steps in the
order of any permutation of `0, ..., size - 1` ends in the memory the kernel ends in. -/
theorem krnl_order_independent_in_range (M : FloatOps) (in1 in2 out size : Int)
    (mem : Int → Int) (hsize : size ≤ 2147483640)
    (hal : ∀ j k : Int, 0 ≤ j → j < size → 0 ≤ k → k < size →
      out + j ≠ in1 + k ∧ out + j ≠ in2 + k)
    (order : List Int) (hperm : order.Perm (intRange 0 size.toNat)) :
    ∃ s, krnl_heavy_compute_parallel M in1 in2 out size mem = some s ∧
      (run_order M in1 in2 out order (initState mem)).mem = s.mem := by
  refine ⟨_, krnl_heavy_compute_parallel_eq M in1 in2 out size mem hsize, ?_⟩
  have hmem : ∀ x, x ∈ order ↔ (0 ≤ x ∧ x < size) := by
    intro x
    rw [hperm.mem_iff, mem_intRange]
    omega
  have hmem' : ∀ x, x ∈ intRange 0 size.toNat ↔ (0 ≤ x ∧ x < size) := by
    intro x
    rw [mem_intRange]
    omega
  funext addr
  by_cases h : ∃ idx : Int, 0 ≤ idx ∧ idx < size ∧ addr = out + idx
  · obtain ⟨idx, h0, h1, rfl⟩ := h
    rw [run_order_mem_out M in1 in2 out order _ (hperm.nodup_iff.mpr (nodup_intRange _ _))
        (fun x hx y hy _ => hal x y ((hmem x).mp hx).1 ((hmem x).mp hx).2
          ((hmem y).mp hy).1 ((hmem y).mp hy).2) idx ((hmem idx).mpr ⟨h0, h1⟩),
      run_order_mem_out M in1 in2 out _ _ (nodup_intRange _ _)
        (fun x hx y hy _ => hal x y ((hmem' x).mp hx).1 ((hmem' x).mp hx).2
          ((hmem' y).mp hy).1 ((hmem' y).mp hy).2) idx ((hmem' idx).mpr ⟨h0, h1⟩)]
  · have hne : ∀ x : Int, 0 ≤ x ∧ x < size → addr ≠ out + x :=
      fun x hx hc => h ⟨x, hx.1, hx.2, hc⟩
    rw [run_order_mem_frame M in1 in2 out addr order _ (fun x hx => hne x ((hmem x).mp hx)),
      run_order_mem_frame M in1 in2 out addr _ _ (fun x hx => hne x ((hmem' x).mp hx))]

/-- C6 (code defect): at `size = 2147483647` performing the per-element steps in any
order yields a final output buffer, but the kernel does not: it runs into the overflow of
`i += 8` and has no result, so its output buffer is not that of any ordered run. -/
theorem C6_kernel_differs_from_ordered_run (M : FloatOps) (in1 in2 out : Int)
    (mem : Int → Int) (order : List Int) :
    krnl_heavy_compute_parallel M in1 in2 out 2147483647 mem = none ∧
    (krnl_heavy_compute_parallel M in1 in2 out 2147483647 mem).map (outputBuffer out 2147483647)
      ≠ some (outputBuffer out 2147483647 (run_order M in1 in2 out order (initState mem))) := by
  have h := krnl_heavy_compute_parallel_overflow M in1 in2 out 2147483647 mem (by decide)
  refine ⟨h, ?_⟩
  rw [h]
  exact fun hc => Option.noConfusion hc

theorem outputBuffer_set_iterations (out size : Int) (s : State) (n : Nat) :
    outputBuffer out size { s with iterations := n } = outputBuffer out size s := rfl

/-- The output buffer after the per-element steps for `0, ..., size - 1`, when no `out[x]`
is the cell of an input element at another index. -/
theorem outputBuffer_run_order (M : FloatOps) (in1 in2 out size : Int) (s : State)
    (hal : ∀ j k : Int, 0 ≤ j → j < size → 0 ≤ k → k < size → j ≠ k →
      out + j ≠ in1 + k ∧ out + j ≠ in2 + k) :
    outputBuffer out size (run_order M in1 in2 out (intRange 0 size.toNat) s)
      = (intRange 0 size.toNat).map
          (fun i => compute_scalar M (s.mem (in1 + i)) (s.mem (in2 + i))) := by
  unfold outputBuffer
  refine List.map_congr_left ?_
  intro i hi
  refine run_order_mem_out M in1 in2 out _ s (nodup_intRange _ _) ?_ i hi
  intro x hx y hy hxy
  rw [mem_intRange] at hx hy
  exact hal x y (by omega) (by omega) (by omega) (by omega) hxy

/-- The accumulator of `circleModel` at `(0, 0)` truncates to -1. -/
theorem compute_scalar_circleModel_0_0 : compute_scalar circleModel 0 0 = -1 := by
  rw [compute_scalar_eq_spec]
  have e : circleModel.toRat (spec_accumulator circleModel 0 0) = -(9936 / 7225) := by
    simp only [spec_accumulator, List.foldl, circleModel]
    norm_num
  rw [e]
  unfold spec_truncate
  rw [if_neg (by norm_num), Int.ceil_eq_iff]
  norm_num

/-- The accumulator of `circleModel` at `(0, 1)` truncates to 0. -/
theorem compute_scalar_circleModel_0_1 : compute_scalar circleModel 0 1 = 0 := by
  rw [compute_scalar_eq_spec]
  simp only [spec_accumulator, List.foldl, circleModel]
  norm_num [spec_truncate]

/-- The accumulator of `circleModel` at `(1, 0)` truncates to 0. -/
theorem compute_scalar_circleModel_1_0 : compute_scalar circleModel 1 0 = 0 := by
  rw [compute_scalar_eq_spec]
  simp only [spec_accumulator, List.foldl, circleModel]
  norm_num [spec_truncate]

/-- C7 as stated fails on the code, in two ways.  (1) With `in2 = in1 - 1` (the cell
`in2[1]` is the cell `in1[0]`), two elements and the arithmetic `circleModel`: the call with
the separate buffer `out` at address 100 writes `[0, 0]`, the call with `out = in1` leaves
`[0, -1]` in the buffer, because its write of `out[0]` changes `in2[1]` before it is read.
(2) With `size = 2147483647` the in-place call has no result: it runs into the overflow
of `i += 8`. -/
theorem C7_in_place_counterexample :
    (krnl_heavy_compute_parallel circleModel 1 0 100 2 (fun c => if c = 1 then 1 else 0)).map
        (outputBuffer 100 2) = some [0, 0] ∧
    (krnl_heavy_compute_parallel circleModel 1 0 1 2 (fun c => if c = 1 then 1 else 0)).map
        (outputBuffer 1 2) = some [0, -1] ∧
    krnl_heavy_compute_parallel circleModel 0 4294967296 0 2147483647 (fun _ => 0) = none := by
  have e : intRange 0 (2 : Int).toNat = [0, 1] := rfl
  refine ⟨?_, ?_, krnl_heavy_compute_parallel_overflow _ _ _ _ _ _ (by decide)⟩
  · rw [krnl_heavy_compute_parallel_eq _ _ _ _ _ _ (by decide)]
    simp only [Option.map_some', outputBuffer_set_iterations]
    unfold outputBuffer
    rw [e, run_order_cons, run_order_cons, run_order_nil]
    simp [element_step, initState, Function.update_apply, compute_scalar_circleModel_0_1,
      compute_scalar_circleModel_1_0]
  · rw [krnl_heavy_compute_parallel_eq _ _ _ _ _ _ (by decide)]
    simp only [Option.map_some', outputBuffer_set_iterations]
    unfold outputBuffer
    rw [e, run_order_cons, run_order_cons, run_order_nil]
    simp [element_step, initState, Function.update_apply, compute_scalar_circleModel_0_0,
      compute_scalar_circleModel_1_0]

/-- C7, amended: in-place aliasing is safe for sizes up to `2^31 - 8` when the two inputs
share cells at most index for index.  Take `out` non-aliased with `in1[0..size)` and
`in2[0..size)`.  Then the call with the separate `out`, the call with `out = in1` and the
call with `out = in2` all return, and for every `i` in `[0, size)` the cell `i` of the
aliased buffer holds the value the separate call wrote to `out[i]`, which is
`compute_scalar` of the initial `in1[i]` and `in2[i]`. -/
theorem C7_in_place_safe_in_range (M : FloatOps) (in1 in2 out size : Int) (mem : Int → Int)
    (hsize : size ≤ 2147483640)
    (hsep : ∀ j k : Int, 0 ≤ j → j < size → 0 ≤ k → k < size →
      out + j ≠ in1 + k ∧ out + j ≠ in2 + k)
    (hin : ∀ j k : Int, 0 ≤ j → j < size → 0 ≤ k → k < size → j ≠ k → in1 + j ≠ in2 + k) :
    ∃ s s1 s2 : State,
      krnl_heavy_compute_parallel M in1 in2 out size mem = some s ∧
      krnl_heavy_compute_parallel M in1 in2 in1 size mem = some s1 ∧
      krnl_heavy_compute_parallel M in1 in2 in2 size mem = some s2 ∧
      ∀ i : Int, 0 ≤ i → i < size →
        s.mem (out + i) = compute_scalar M (mem (in1 + i)) (mem (in2 + i)) ∧
        s1.mem (in1 + i) = s.mem (out + i) ∧
        s2.mem (in2 + i) = s.mem (out + i) := by
  refine ⟨_, _, _, krnl_heavy_compute_parallel_eq M in1 in2 out size mem hsize,
    krnl_heavy_compute_parallel_eq M in1 in2 in1 size mem hsize,
    krnl_heavy_compute_parallel_eq M in1 in2 in2 size mem hsize, ?_⟩
  intro i h0 h1
  have hi : i ∈ intRange 0 size.toNat := by
    rw [mem_intRange]
    omega
  have e0 : (run_order M in1 in2 out (intRange 0 size.toNat) (initState mem)).mem (out + i)
      = compute_scalar M (mem (in1 + i)) (mem (in2 + i)) := by
    refine run_order_mem_out M in1 in2 out _ _ (nodup_intRange _ _) ?_ i hi
    intro x hx y hy _
    rw [mem_intRange] at hx hy
    exact hsep x y (by omega) (by omega) (by omega) (by omega)
  have e1 : (run_order M in1 in2 in1 (intRange 0 size.toNat) (initState mem)).mem (in1 + i)
      = compute_scalar M (mem (in1 + i)) (mem (in2 + i)) := by
    refine run_order_mem_out M in1 in2 in1 _ _ (nodup_intRange _ _) ?_ i hi
    intro x hx y hy hxy
    rw [mem_intRange] at hx hy
    exact ⟨fun hc => hxy (by omega), hin x y (by omega) (by omega) (by omega) (by omega) hxy⟩
  have e2 : (run_order M in1 in2 in2 (intRange 0 size.toNat) (initState mem)).mem (in2 + i)
      = compute_scalar M (mem (in1 + i)) (mem (in2 + i)) := by
    refine run_order_mem_out M in1 in2 in2 _ _ (nodup_intRange _ _) ?_ i hi
    intro x hx y hy hxy
    rw [mem_intRange] at hx hy
    exact ⟨fun hc => hin y x (by omega) (by omega) (by omega) (by omega) (Ne.symm hxy) hc.symm,
      fun hc => hxy (by omega)⟩
  exact ⟨e0, e1.trans e0.symm, e2.trans e0.symm⟩

/-- A concrete instance of the amended C7: four elements, `in1` at address 0, `in2` at
address 100 and the separate `out` at address 200. -/
theorem C7_in_place_safe_in_range_witness :
    (4 : Int) ≤ 2147483640 ∧
    ∃ s s1 s2 : State,
      krnl_heavy_compute_parallel intModel 0 100 200 4 (fun a => a) = some s ∧
      krnl_heavy_compute_parallel intModel 0 100 0 4 (fun a => a) = some s1 ∧
      krnl_heavy_compute_parallel intModel 0 100 100 4 (fun a => a) = some s2 ∧
      ∀ i : Int, 0 ≤ i → i < 4 →
        s.mem (200 + i)
          = compute_scalar intModel ((fun a => a) (0 + i)) ((fun a => a) (100 + i)) ∧
        s1.mem (0 + i) = s.mem (200 + i) ∧
        s2.mem (100 + i) = s.mem (200 + i) :=
  ⟨by decide, C7_in_place_safe_in_range intModel 0 100 200 4 (fun a => a) (by decide)
    (fun j k _ _ _ _ => ⟨by omega, by omega⟩) (fun j k _ _ _ _ _ => by omega)⟩

/-- Two memories that agree on a set of cells containing every cell the steps read still
agree on that set after the steps. -/
theorem run_order_agree (M : FloatOps) (in1 in2 out : Int) (A : Int → Prop) (l : List Int)
    (hA : ∀ x ∈ l, A (in1 + x) ∧ A (in2 + x)) :
    ∀ s s' : State, (∀ a, A a → s.mem a = s'.mem a) →
      ∀ a, A a → (run_order M in1 in2 out l s).mem a = (run_order M in1 in2 out l s').mem a := by
  induction l with
  | nil => intro s s' h a ha; exact h a ha
  | cons x l ih =>
    intro s s' h a ha
    rw [run_order_cons, run_order_cons]
    refine ih (fun y hy => hA y (List.mem_cons_of_mem _ hy)) _ _ ?_ a ha
    intro c hc
    have hx := hA x (List.mem_cons_self _ _)
    simp only [element_step]
    rw [h _ hx.1, h _ hx.2]
    by_cases hco : c = out + x
    · rw [hco, Function.update_same, Function.update_same]
    · rw [Function.update_noteq hco, Function.update_noteq hco]
      exact h c hc

/-- C9: `compute_scalar` is a function of its two arguments, and the kernel keeps no state
between runs: two evaluations of `compute_scalar` on equal arguments give the same result,
and two runs of the kernel with the same pointers and `size`, on memories that hold equal
contents in `in1[0..size)`, `in2[0..size)` and the output buffer `out[0..len)` (and
anything at all elsewhere), end with equal output buffers, both runs having a result or
neither. -/
theorem C9_deterministic (M : FloatOps) (in1 in2 out size len : Int) (mem mem' : Int → Int)
    (a b a' b' : Int) (ha : a = a') (hb : b = b')
    (hin : ∀ i : Int, 0 ≤ i → i < size →
      mem (in1 + i) = mem' (in1 + i) ∧ mem (in2 + i) = mem' (in2 + i))
    (hout : ∀ i : Int, 0 ≤ i → i < len → mem (out + i) = mem' (out + i)) :
    compute_scalar M a b = compute_scalar M a' b' ∧
    (krnl_heavy_compute_parallel M in1 in2 out size mem).map (outputBuffer out len)
      = (krnl_heavy_compute_parallel M in1 in2 out size mem').map (outputBuffer out len) := by
  refine ⟨by rw [ha, hb], ?_⟩
  by_cases hsize : size ≤ 2147483640
  · rw [krnl_heavy_compute_parallel_eq M in1 in2 out size mem hsize,
      krnl_heavy_compute_parallel_eq M in1 in2 out size mem' hsize]
    simp only [Option.map_some', Option.some.injEq]
    unfold outputBuffer
    refine List.map_congr_left ?_
    intro i hi
    rw [mem_intRange] at hi
    refine run_order_agree M in1 in2 out
      (fun c => (∃ i : Int, 0 ≤ i ∧ i < size ∧ (c = in1 + i ∨ c = in2 + i)) ∨
        (∃ i : Int, 0 ≤ i ∧ i < len ∧ c = out + i)) _ ?_ _ _ ?_ _ ?_
    · intro x hx
      rw [mem_intRange] at hx
      exact ⟨Or.inl ⟨x, by omega, by omega, Or.inl rfl⟩,
        Or.inl ⟨x, by omega, by omega, Or.inr rfl⟩⟩
    · intro c hc
      rcases hc with ⟨j, h0, h1, rfl | rfl⟩ | ⟨j, h0, h1, rfl⟩
      · exact (hin j h0 h1).1
      · exact (hin j h0 h1).2
      · exact hout j h0 h1
    · exact Or.inr ⟨i, by omega, by omega, rfl⟩
  · have hov : 2147483641 ≤ size := by omega
    rw [krnl_heavy_compute_parallel_overflow M in1 in2 out size mem hov,
      krnl_heavy_compute_parallel_overflow M in1 in2 out size mem' hov]

/-- A concrete instance of C9: two memories that differ only at address 1000, outside the
three buffers of four elements at addresses 0, 100 and 200. -/
theorem C9_deterministic_witness :
    compute_scalar intModel 3 7 = compute_scalar intModel 3 7 ∧
    (krnl_heavy_compute_parallel intModel 0 100 200 4 (fun c => c)).map (outputBuffer 200 4)
      = (krnl_heavy_compute_parallel intModel 0 100 200 4
          (fun c => if c = 1000 then 0 else c)).map (outputBuffer 200 4) :=
  C9_deterministic intModel 0 100 200 4 4 (fun c => c) (fun c => if c = 1000 then 0 else c)
    3 7 3 7 rfl rfl
    (fun i h0 h1 => by
      have e1 : ¬ (0 + i = 1000) := by omega
      have e2 : ¬ (100 + i = 1000) := by omega
      simp only [e1, e2, if_false, and_self])
    (fun i h0 h1 => by
      have e1 : ¬ (200 + i = 1000) := by omega
      simp only [e1, if_false])

/-- The call with `out = in1 + 1` on at least two elements, `in2` not the same pointer
as `in1`: the first six accesses are those of the indices 0 and 1 in program order, `out[0]`
(the cell `in1[1]`) ends up holding `compute_scalar` of the initial `in1[0]` and `in2[0]`,
and `out[1]` ends up holding `compute_scalar` of that value just written and `in2[1]`. -/
theorem shifted_alias_values (M : FloatOps) (in1 in2 size : Int) (mem : Int → Int)
    (h2 : 2 ≤ size) (hsize : size ≤ 2147483640) (hne : in1 ≠ in2) :
    ∃ (s : State) (rest : List Access),
      krnl_heavy_compute_parallel M in1 in2 (in1 + 1) size mem = some s ∧
      s.trace = [Access.readIn1 0, Access.readIn2 0, Access.writeOut 0,
        Access.readIn1 1, Access.readIn2 1, Access.writeOut 1] ++ rest ∧
      s.mem (in1 + 1 + 0) = compute_scalar M (mem (in1 + 0)) (mem (in2 + 0)) ∧
      s.mem (in1 + 1 + 1)
        = compute_scalar M (compute_scalar M (mem (in1 + 0)) (mem (in2 + 0)))
            (mem (in2 + 1)) := by
  obtain ⟨m, hm⟩ : ∃ m : Nat, size.toNat = m + 2 := ⟨size.toNat - 2, by omega⟩
  have el : intRange 0 size.toNat = 0 :: 1 :: intRange 2 m := by
    rw [hm]
    rfl
  have hframe : ∀ (addr : Int) (t : State), addr ≤ in1 + 2 →
      (run_order M in1 in2 (in1 + 1) (intRange 2 m) t).mem addr = t.mem addr := by
    intro addr t ha
    refine run_order_mem_frame M in1 in2 (in1 + 1) addr _ t ?_
    intro x hx
    rw [mem_intRange] at hx
    omega
  have n1 : in1 + 1 + 1 ≠ in1 + 1 + 0 := by omega
  have n2 : in2 + 1 ≠ in1 + 1 + 0 := by omega
  refine ⟨_, (intRange 2 m).flatMap accessesOf,
    krnl_heavy_compute_parallel_eq M in1 in2 (in1 + 1) size mem hsize, ?_, ?_, ?_⟩
  · show (run_order M in1 in2 (in1 + 1) (intRange 0 size.toNat) (initState mem)).trace = _
    rw [run_order_trace, el]
    rfl
  · show (run_order M in1 in2 (in1 + 1) (intRange 0 size.toNat) (initState mem)).mem _ = _
    rw [el, run_order_cons, run_order_cons, hframe _ _ (by omega)]
    simp only [element_step, initState]
    rw [Function.update_noteq (Ne.symm n1), Function.update_same]
  · show (run_order M in1 in2 (in1 + 1) (intRange 0 size.toNat) (initState mem)).mem _ = _
    rw [el, run_order_cons, run_order_cons, hframe _ _ (by omega)]
    simp only [element_step, initState]
    rw [Function.update_same, Function.update_noteq n2,
      show in1 + 1 + 0 = in1 + 1 from add_zero _, Function.update_same]

/-- C10: aliasing the output with an input at a different index is not safe.  For the call
with `out = in1 + 1` (the cell `out[i]` is the cell `in1[i + 1]`) on at least two elements
the write of `out[0]` precedes the read of `in1[1]`, so `out[1]` is computed from the
value just written: it holds `compute_scalar(compute_scalar(in1[0], in2[0]), in2[1])` of the
initial contents.  Hence, whenever `compute_scalar` is not constant in its first argument,
there are a size of at least 2 and buffer contents (`in2` sharing no cell with the others)
for which some `out[i]`, `i < size`, differs from `compute_scalar` of the original `in1[i]`
and `in2[i]`. -/
theorem C10_shifted_alias_unsafe (M : FloatOps)
    (hcs : ∃ u v y : Int, compute_scalar M u y ≠ compute_scalar M v y) :
    (∀ (in1 in2 size : Int) (mem : Int → Int), 2 ≤ size → size ≤ 2147483640 → in1 ≠ in2 →
      ∃ (s : State) (rest : List Access),
        krnl_heavy_compute_parallel M in1 in2 (in1 + 1) size mem = some s ∧
        s.trace = [Access.readIn1 0, Access.readIn2 0, Access.writeOut 0,
          Access.readIn1 1, Access.readIn2 1, Access.writeOut 1] ++ rest ∧
        s.mem (in1 + 1 + 0) = compute_scalar M (mem (in1 + 0)) (mem (in2 + 0)) ∧
        s.mem (in1 + 1 + 1)
          = compute_scalar M (compute_scalar M (mem (in1 + 0)) (mem (in2 + 0)))
              (mem (in2 + 1))) ∧
    (∃ (size in1 in2 : Int) (mem : Int → Int) (s : State),
      2 ≤ size ∧
      (∀ j k : Int, 0 ≤ j → j ≤ size → 0 ≤ k → k < size → in1 + j ≠ in2 + k) ∧
      krnl_heavy_compute_parallel M in1 in2 (in1 + 1) size mem = some s ∧
      ∃ i : Int, 0 ≤ i ∧ i < size ∧
        s.mem (in1 + 1 + i) ≠ compute_scalar M (mem (in1 + i)) (mem (in2 + i))) := by
  refine ⟨fun in1 in2 size mem h2 hsize hne =>
    shifted_alias_values M in1 in2 size mem h2 hsize hne, ?_⟩
  obtain ⟨u, v, y, huv⟩ := hcs
  have hx : ∃ x1 : Int,
      compute_scalar M (compute_scalar M 0 0) y ≠ compute_scalar M x1 y := by
    by_cases h : compute_scalar M (compute_scalar M 0 0) y = compute_scalar M u y
    · exact ⟨v, fun hc => huv (h.symm.trans hc)⟩
    · exact ⟨u, h⟩
  obtain ⟨x1, hx1⟩ := hx
  obtain ⟨s, _, hs, _, _, hm⟩ :=
    shifted_alias_values M 0 10 2 (fun c => if c = 1 then x1 else if c = 11 then y else 0)
      (by decide) (by decide) (by decide)
  refine ⟨2, 0, 10, _, s, le_rfl, fun j k _ _ _ _ => by omega, hs, 1,
    by decide, by decide, ?_⟩
  rw [hm]
  simpa using hx1

/-- A concrete instance of C10, with the arithmetic `intModel`, in which `compute_scalar`
takes the values 10 and 15 at `(0, 0)` and `(1, 0)`: with `in1` at address 0, `in2` at
address 10 and three elements, `out[1]` holds `compute_scalar` of the value written to
`out[0]`. -/
theorem C10_shifted_alias_unsafe_witness :
    (∃ u v y : Int, compute_scalar intModel u y ≠ compute_scalar intModel v y) ∧
    ∃ (s : State) (rest : List Access),
      krnl_heavy_compute_parallel intModel 0 10 (0 + 1) 3 (fun a => a) = some s ∧
      s.trace = [Access.readIn1 0, Access.readIn2 0, Access.writeOut 0,
        Access.readIn1 1, Access.readIn2 1, Access.writeOut 1] ++ rest ∧
      s.mem (0 + 1 + 0)
        = compute_scalar intModel ((fun a => a) (0 + 0)) ((fun a => a) (10 + 0)) ∧
      s.mem (0 + 1 + 1)
        = compute_scalar intModel
            (compute_scalar intModel ((fun a => a) (0 + 0)) ((fun a => a) (10 + 0)))
            ((fun a => a) (10 + 1)) :=
  have h : ∃ u v y : Int, compute_scalar intModel u y ≠ compute_scalar intModel v y :=
    ⟨0, 1, 0, by rw [compute_scalar_intModel, compute_scalar_intModel]; decide⟩
  ⟨h, ( C10_shifted_alias_unsafe intModel h).1 0 10 3 (fun a => a) (by decide) (by decide)
    (by decide)⟩

/-! ## Loop counter: iterations, overflow, negative sizes -/

/-- For a size that is not negative, the number of groups of 8 is the ceiling of
`size / 8`. -/
theorem ceil_div_eight (size : Int) : ⌈(size : ℚ) / 8⌉ = (size + 7) / 8 := by
  rw [Int.ceil_eq_iff]
  have h1 : size + 7 = 8 * ((size + 7) / 8) + (size + 7) % 8 :=
    (Int.ediv_add_emod (size + 7) 8).symm
  have h2 : 0 ≤ (size + 7) % 8 := Int.emod_nonneg _ (by decide)
  have h3 : (size + 7) % 8 < 8 := Int.emod_lt_of_pos _ (by decide)
  have hlo : 8 * ((size + 7) / 8) - 8 < size := by omega
  have hhi : size ≤ 8 * ((size + 7) / 8) := by omega
  have hlo' : (8 : ℚ) * (((size + 7) / 8 : Int) : ℚ) - 8 < (size : ℚ) := by exact_mod_cast hlo
  have hhi' : (size : ℚ) ≤ 8 * (((size + 7) / 8 : Int) : ℚ) := by exact_mod_cast hhi
  constructor
  · linarith
  · linarith

/-- As long as whole groups remain below `size` and the counter stays representable, `n`
iterations of the outer loop take the counter from `i` to `i + n * P`, having performed the
per-element step for the `n * P` indices from `i` on. -/
theorem main_loop_i_advance (M : FloatOps) (P : ℕ+) (in1 in2 out size : Int) (n : Nat) :
    ∀ (i : Int) (s : State), 0 ≤ i → i + (n : Int) * (P : Int) ≤ size →
      i + (n : Int) * (P : Int) ≤ INT_MAX →
      main_loop_i M P in1 in2 out size i s
        = main_loop_i M P in1 in2 out size (i + (n : Int) * (P : Int))
            { run_order M in1 in2 out (intRange i (n * (P : Nat))) s with
              iterations := s.iterations + n } := by
  have hP : (0 : Int) < (P : Int) := by exact_mod_cast P.pos
  induction n with
  | zero =>
    intro i s _ _ _
    simp only [Nat.cast_zero, zero_mul, add_zero, intRange]
    rfl
  | succ n ih =>
    intro i s hi hle hmax
    have hexp : ((n + 1 : Nat) : Int) * (P : Int) = (P : Int) + (n : Int) * (P : Int) := by
      push_cast
      ring
    have hnn : 0 ≤ (n : Int) * (P : Int) := mul_nonneg (Int.ofNat_nonneg _) (le_of_lt hP)
    rw [hexp] at hle hmax
    rw [main_loop_i, if_pos (by omega),
      task_parallel_loop_k_zero M P in1 in2 out size i s hi (by omega)]
    simp only
    have hadd : addInt i (P : Int) = some (i + P) :=
      addInt_eq_some (by rw [INT_MIN_eq]; omega) (by omega)
    split
    · rename_i hnone
      rw [hadd] at hnone
      exact absurd hnone (by simp)
    · rename_i i' hsome
      rw [hadd] at hsome
      simp only [Option.some.injEq] at hsome
      subst hsome
      rw [ih (i + P) _ (by omega) (by omega) (by omega), run_order_set_iterations,
        ← run_order_append, run_order_iterations]
      have e1 : min (P : Nat) (size - i).toNat = (P : Nat) := by omega
      have e2 : (n + 1) * (P : Nat) = (P : Nat) + n * (P : Nat) := by ring
      have e3 : i + ↑↑P + ↑n * ↑↑P = i + ((n + 1 : Nat) : Int) * (P : Int) := by
        rw [hexp]
        ring
      rw [e1, ← intRange_append, ← e2, e3]
      congr 2
      simp only [State.mk.injEq, true_and]
      omega

/-- C11: with the 32-bit counter, for every `size` with `0 <= size <= 2^31 - 8` the kernel
returns after exactly `ceil(size / 8)` iterations of the main loop, and for every value
`i` the counter takes (a multiple of 8 below `size`) and every `k` in `0..7` neither
`i + k` nor `i + 8` exceeds `2^31 - 1`.  For the size `2^31 - 1`, in the range
`2^31 - 7 .. 2^31 - 1`, the loop reaches `i = 2147483640` after 268435455 iterations, the
condition `i < size` holds there, and the increment `i += 8` exceeds `2^31 - 1`, so the
kernel has no result. -/
theorem C11_iterations_and_overflow (M : FloatOps) (in1 in2 out size : Int) (mem : Int → Int)
    (h0 : 0 ≤ size) (h1 : size ≤ 2147483640) :
    (∃ s, krnl_heavy_compute_parallel M in1 in2 out size mem = some s ∧
      (s.iterations : Int) = ⌈(size : ℚ) / 8⌉) ∧
    (∀ i k : Int, 0 ≤ i → i < size → (8 : Int) ∣ i → 0 ≤ k → k < 8 →
      addInt i k = some (i + k) ∧ i + k ≤ 2147483647 ∧
      addInt i ((N_PIPELINES : ℕ+) : Int) = some (i + 8) ∧ i + 8 ≤ 2147483647) ∧
    (∃ size' : Int, 2147483641 ≤ size' ∧ size' ≤ 2147483647 ∧
      ∃ s' : State,
        main_loop_i M N_PIPELINES in1 in2 out size' 0 (initState mem)
          = main_loop_i M N_PIPELINES in1 in2 out size' 2147483640 s' ∧
        s'.iterations = 268435455 ∧
        (2147483640 : Int) < size' ∧
        (2147483647 : Int) < 2147483640 + 8 ∧
        addInt 2147483640 ((N_PIPELINES : ℕ+) : Int) = none ∧
        krnl_heavy_compute_parallel M in1 in2 out size' mem = none) := by
  refine ⟨?_, ?_, ?_⟩
  · obtain ⟨s, hs, hit⟩ := krnl_iterations_in_range M in1 in2 out size mem h1
    refine ⟨s, hs, ?_⟩
    rw [hit, ceil_div_eight]
    have hnn : 0 ≤ (size + 7) / 8 := Int.ediv_nonneg (by omega) (by decide)
    exact Int.toNat_of_nonneg hnn
  · intro i k hi hlt hdvd hk hk8
    refine ⟨addInt_eq_some (by rw [INT_MIN_eq]; omega) (by rw [INT_MAX_eq]; omega),
      by omega, ?_, by omega⟩
    rw [N_PIPELINES_eq]
    exact addInt_eq_some (by rw [INT_MIN_eq]; omega) (by rw [INT_MAX_eq]; omega)
  · have e : (0 : Int) + ((268435455 : Nat) : Int) * ((N_PIPELINES : ℕ+) : Int)
        = 2147483640 := by
      rw [N_PIPELINES_eq]
      norm_num
    have hadv := main_loop_i_advance M N_PIPELINES in1 in2 out 2147483647 268435455 0
      (initState mem) le_rfl (by rw [e]; decide) (by rw [e]; decide)
    have hit : (initState mem).iterations + 268435455 = 268435455 := Nat.zero_add _
    rw [e, hit] at hadv
    exact ⟨2147483647, by decide, by decide, _, hadv, rfl, by decide, by decide, by decide,
      krnl_heavy_compute_parallel_overflow M in1 in2 out 2147483647 mem (by decide)⟩

/-- A concrete instance of C11: `size = 20`, three iterations. -/
theorem C11_iterations_and_overflow_witness :
    (0 : Int) ≤ 20 ∧ (20 : Int) ≤ 2147483640 ∧
    ∃ s, krnl_heavy_compute_parallel intModel 0 100 200 20 (fun a => a) = some s ∧
      (s.iterations : Int) = ⌈((20 : Int) : ℚ) / 8⌉ :=
  ⟨by decide, by decide,
    (C11_iterations_and_overflow intModel 0 100 200 20 (fun a => a) (by decide) (by decide)).1⟩

/-- C12: for every negative `size` the kernel returns without executing an iteration of
the main loop: the iteration count is 0, the trace is empty (no read, no write), and the
memory, hence every element of `in1`, `in2` and `out`, is the one it was called on; the
call has a result, so no overflow or other error arises. -/
theorem C12_negative_size_no_iteration (M : FloatOps) (in1 in2 out size : Int)
    (mem : Int → Int) (hneg : size < 0) :
    krnl_heavy_compute_parallel M in1 in2 out size mem
      = some { mem := mem, trace := [], iterations := 0 } := by
  unfold krnl_heavy_compute_parallel krnl_chunked
  rw [main_loop_i, if_neg (by omega)]
  rfl

/-- A concrete instance of C12: `size = -5`. -/
theorem C12_negative_size_no_iteration_witness :
    (-5 : Int) < 0 ∧
    krnl_heavy_compute_parallel intModel 0 100 200 (-5) (fun a => a)
      = some { mem := fun a => a, trace := [], iterations := 0 } :=
  ⟨by decide, C12_negative_size_no_iteration intModel 0 100 200 (-5) (fun a => a) (by decide)⟩

/-! ## Range of the accumulator -/

/-- Rounding keeps a value within an integer bound up to 5. -/
theorem RoundedArith.rnd_abs_le {M : FloatOps} {rnd : ℚ → ℚ} (h : RoundedArith M rnd)
    (n : Int) (hn : n ≤ 5) (q : ℚ) (hq : |q| ≤ (n : ℚ)) : |rnd q| ≤ (n : ℚ) := by
  have hq' := abs_le.mp hq
  have hn0 : (0 : ℚ) ≤ (n : ℚ) := le_trans (abs_nonneg q) hq
  have hn0' : 0 ≤ n := by exact_mod_cast hn0
  have e1 : rnd ((n : Int) : ℚ) = (n : ℚ) := h.rnd_int n (by rw [abs_le]; omega)
  have e2 : rnd (((-n : Int)) : ℚ) = ((-n : Int) : ℚ) := h.rnd_int (-n) (by rw [abs_le]; omega)
  rw [abs_le]
  constructor
  · have := h.rnd_mono hq'.1
    have e3 : (-(n : ℚ)) = ((-n : Int) : ℚ) := by push_cast; ring
    rw [e3, e2] at this
    rw [e3]
    exact this
  · have := h.rnd_mono hq'.2
    rw [e1] at this
    exact this

/-- Each term `hls::sinf(val_a + j) * hls::cosf(val_b - j)` has a value in `[-1, 1]`. -/
theorem RoundedArith.term_abs_le {M : FloatOps} {rnd : ℚ → ℚ} (h : RoundedArith M rnd)
    (val_a val_b : M.F) (j : Int) : |M.toRat (term M val_a val_b j)| ≤ 1 := by
  unfold term
  have hs := h.sinf_range (M.add val_a (M.ofInt j))
  have hc := h.cosf_range (M.sub val_b (M.ofInt j))
  rw [h.mul_val _ _ (le_trans hs (by norm_num)) (le_trans hc (by norm_num))]
  have hp : |M.toRat (M.sinf (M.add val_a (M.ofInt j)))
      * M.toRat (M.cosf (M.sub val_b (M.ofInt j)))| ≤ ((1 : Int) : ℚ) := by
    rw [abs_mul]
    push_cast
    calc |M.toRat (M.sinf (M.add val_a (M.ofInt j)))|
          * |M.toRat (M.cosf (M.sub val_b (M.ofInt j)))|
        ≤ 1 * 1 := mul_le_mul hs hc (abs_nonneg _) (by norm_num)
      _ = 1 := by norm_num
  have := h.rnd_abs_le 1 (by decide) _ hp
  exact_mod_cast this

/-- Adding a term to an accumulator of absolute value at most `n <= 4` gives an
accumulator of absolute value at most `n + 1`. -/
theorem RoundedArith.add_term_abs_le {M : FloatOps} {rnd : ℚ → ℚ} (h : RoundedArith M rnd)
    (n : Int) (hn0 : 0 ≤ n) (hn : n ≤ 4) (r t : M.F) (hr : |M.toRat r| ≤ (n : ℚ))
    (ht : |M.toRat t| ≤ 1) : |M.toRat (M.add r t)| ≤ ((n + 1 : Int) : ℚ) := by
  have hn' : (n : ℚ) ≤ 4 := by exact_mod_cast hn
  rw [h.add_val r t (by linarith) (by linarith)]
  refine h.rnd_abs_le (n + 1) (by omega) _ ?_
  push_cast
  calc |M.toRat r + M.toRat t| ≤ |M.toRat r| + |M.toRat t| := abs_add _ _
    _ ≤ (n : ℚ) + 1 := add_le_add hr ht

/-- The accumulator after the five iterations has absolute value at most 5. -/
theorem RoundedArith.compute_loop_abs_le {M : FloatOps} {rnd : ℚ → ℚ} (h : RoundedArith M rnd)
    (val_a val_b : M.F) : |M.toRat (compute_loop M val_a val_b 0 M.zero)| ≤ 5 := by
  rw [compute_loop_unrolled]
  have h0 : |M.toRat M.zero| ≤ ((0 : Int) : ℚ) := by rw [h.zero_val]; simp
  have h1 := h.add_term_abs_le 0 (by decide) (by decide) _ _ h0 (h.term_abs_le val_a val_b 0)
  have h2 := h.add_term_abs_le _ (by decide) (by decide) _ _ h1 (h.term_abs_le val_a val_b 1)
  have h3 := h.add_term_abs_le _ (by decide) (by decide) _ _ h2 (h.term_abs_le val_a val_b 2)
  have h4 := h.add_term_abs_le _ (by decide) (by decide) _ _ h3 (h.term_abs_le val_a val_b 3)
  have h5 := h.add_term_abs_le _ (by decide) (by decide) _ _ h4 (h.term_abs_le val_a val_b 4)
  exact_mod_cast h5

/-- Truncation toward zero of a value of absolute value at most 5 is an integer between
-5 and 5. -/
theorem truncToZero_bounds (v : ℚ) (hv : |v| ≤ 5) : -5 ≤ truncToZero v ∧ truncToZero v ≤ 5 := by
  have hv' := abs_le.mp hv
  rw [truncToZero_eq_spec_truncate]
  unfold spec_truncate
  by_cases h : 0 ≤ v
  · rw [if_pos h]
    have h1 : 0 ≤ ⌊v⌋ := Int.floor_nonneg.mpr h
    have h2 : ((⌊v⌋ : Int) : ℚ) ≤ 5 := le_trans (Int.floor_le v) hv'.2
    have h3 : ⌊v⌋ ≤ 5 := by exact_mod_cast h2
    omega
  · rw [if_neg h]
    have h1 : ⌈v⌉ ≤ 0 := Int.ceil_le.mpr (by push_cast; linarith)
    have h2 : (-5 : ℚ) ≤ ((⌈v⌉ : Int) : ℚ) := le_trans hv'.1 (Int.le_ceil v)
    have h3 : -5 ≤ ⌈v⌉ := by exact_mod_cast h2
    omega

theorem abs_circle_sin_le (x : ℚ) : |2 * x / (1 + x ^ 2)| ≤ 1 := by
  have hpos : (0 : ℚ) < 1 + x ^ 2 := by positivity
  rw [abs_le]
  constructor
  · rw [le_div_iff₀ hpos]
    nlinarith [sq_nonneg (x + 1)]
  · rw [div_le_iff₀ hpos]
    nlinarith [sq_nonneg (x - 1)]

theorem abs_circle_cos_le (x : ℚ) : |(1 - x ^ 2) / (1 + x ^ 2)| ≤ 1 := by
  have hpos : (0 : ℚ) < 1 + x ^ 2 := by positivity
  rw [abs_le]
  constructor
  · rw [le_div_iff₀ hpos]
    nlinarith [sq_nonneg x]
  · rw [div_le_iff₀ hpos]
    nlinarith [sq_nonneg x]

/-- The arithmetic `circleModel` has the properties `RoundedArith`, without rounding. -/
theorem circleModel_roundedArith : RoundedArith circleModel (fun q => q) where
  rnd_mono := fun _ _ hxy => hxy
  rnd_int := fun _ _ => rfl
  zero_val := rfl
  add_val := fun _ _ _ _ => rfl
  mul_val := fun _ _ _ _ => rfl
  sinf_range := fun x => abs_circle_sin_le x
  cosf_range := fun x => abs_circle_cos_le x

/-- C13: in single-precision arithmetic with the properties `RoundedArith` (monotone
rounding, small integers representable, `hls::sinf` and `hls::cosf` with values in
`[-1, 1]`), for all integers `a`, `b` (in particular all 32-bit ones) each term
`sin(x) * cos(y)` has a value in `[-1, 1]`, the accumulator of `compute_scalar` has absolute
value at most 5 after the five iterations, so its value is inside the range of `int32_t`
and the narrowing does not overflow, and `compute_scalar a b` is an integer in `-5 .. 5`. -/
theorem C13_accumulator_within_five (M : FloatOps) (rnd : ℚ → ℚ) (h : RoundedArith M rnd)
    (a b : Int) :
    (∀ j : Int, |M.toRat (term M (M.ofInt a) (M.ofInt b) j)| ≤ 1) ∧
    |M.toRat (compute_loop M (M.ofInt a) (M.ofInt b) 0 M.zero)| ≤ 5 ∧
    ((INT_MIN : ℚ) ≤ M.toRat (compute_loop M (M.ofInt a) (M.ofInt b) 0 M.zero) ∧
      M.toRat (compute_loop M (M.ofInt a) (M.ofInt b) 0 M.zero) ≤ (INT_MAX : ℚ)) ∧
    (-5 ≤ compute_scalar M a b ∧ compute_scalar M a b ≤ 5) := by
  have hacc := h.compute_loop_abs_le (M.ofInt a) (M.ofInt b)
  have hacc' := abs_le.mp hacc
  refine ⟨fun j => h.term_abs_le _ _ j, hacc, ⟨?_, ?_⟩, ?_⟩
  · rw [INT_MIN_eq]
    push_cast
    linarith
  · rw [INT_MAX_eq]
    push_cast
    linarith
  · exact truncToZero_bounds _ hacc

/-- A concrete instance of C13: the arithmetic `circleModel` at `a = 3`, `b = 7`. -/
theorem C13_accumulator_within_five_witness :
    RoundedArith circleModel (fun q => q) ∧
    (-5 ≤ compute_scalar circleModel 3 7 ∧ compute_scalar circleModel 3 7 ≤ 5) :=
  ⟨circleModel_roundedArith,
    (C13_accumulator_within_five circleModel (fun q => q) circleModel_roundedArith 3 7).2.2.2⟩

/-! ## Device identifiers -/

/-- C14: the five device identifiers `"gpu_opencl"`, `"gpu_metal"`, `"fpga"`, `"cpu_ff"`
and `"cpu_omp"` are the values of the five constants and are pairwise distinct, so the
mapping from constant to label is injective and the constant can be looked up from its
label. -/
theorem C14_device_labels_distinct :
    [device.GPU_CL, device.GPU_MTL, device.FPGA, device.CPU_FF, device.CPU_OMP]
      = ["gpu_opencl", "gpu_metal", "fpga", "cpu_ff", "cpu_omp"] ∧
    List.Pairwise (fun x y => x ≠ y)
      [device.GPU_CL, device.GPU_MTL, device.FPGA, device.CPU_FF, device.CPU_OMP] ∧
    Function.Injective DeviceConstant.label := by
  refine ⟨rfl, by decide, ?_⟩
  intro c d h
  cases c <;> cases d <;> first | rfl | exact absurd h (by decide)

end HeavyCompute
